import Mathlib

/-!
Verification of the structure-preserving markup translation pipeline of
`api/translate-product.js` (repository `allcustom-api`).

Strings are modelled as `List Char` (one entry per UTF-16 code unit of the
JavaScript string; all characters appearing here are in the BMP, so code
units and code points coincide).  The two pure core functions
`extractTextSegments` and `rebuildHtmlWithTranslations` are translated
statement by statement from the source; the request handler's control flow
is embedded as a pure function over the request, the environment and the
three external responses, recording which external calls were issued.
-/

/-- One text segment produced by the extractor: the JS object
`{ start, end, text }` pushed by `extractTextSegments`. -/
structure TextSegment where
  start : Nat
  «end» : Nat
  text : List Char
deriving DecidableEq, Repr

/-- The scanning loop of `extractTextSegments` (translate-product.js lines
327–351 plus the final flush at lines 353–359).  `i` is the current index,
`insideTag`, `currentText` and `currentStart` mirror the JS locals of the
same names; the remaining input is the list argument.  At the end of the
input, `i` equals `html.length`, so the final push uses `i` as its end. -/
def extractLoop : List Char → Nat → Bool → List Char → Nat → List TextSegment
  | [], i, insideTag, currentText, currentStart =>
    if insideTag = false ∧ currentText ≠ [] then
      [⟨currentStart, i, currentText⟩]
    else
      []
  | ch :: rest, i, insideTag, currentText, currentStart =>
    if ch = '<' then
      if insideTag = false ∧ currentText ≠ [] then
        ⟨currentStart, i, currentText⟩ :: extractLoop rest (i + 1) true [] currentStart
      else
        extractLoop rest (i + 1) true currentText currentStart
    else if ch = '>' then
      extractLoop rest (i + 1) false currentText currentStart
    else
      if insideTag = false then
        if currentText = [] then
          extractLoop rest (i + 1) insideTag [ch] i
        else
          extractLoop rest (i + 1) insideTag (currentText ++ [ch]) currentStart
      else
        extractLoop rest (i + 1) insideTag currentText currentStart

/-- `extractTextSegments(html)` from translate-product.js (lines 321–362):
scan the string left to right with an `insideTag` flag, accumulating maximal
runs of characters lying outside `<...>` regions. -/
def extractTextSegments (html : List Char) : List TextSegment :=
  extractLoop html 0 false [] 0

/-- JavaScript `str.slice(a, b)` for natural indices: the characters at
positions `[a, b)`, empty when `a ≥ b`, clamped to the string length. -/
def jsSlice (l : List Char) (a b : Nat) : List Char :=
  (l.take b).drop a

/-- The loop of `rebuildHtmlWithTranslations` (lines 372–379): walk the
segments in order, copying `html.slice(lastIndex, seg.start)` and then the
i-th translation; `translations` is consumed in lockstep (a missing entry
is JS `undefined`, which `+=` coerces to the string "undefined").  After
the loop the tail `html.slice(lastIndex)` is appended (line 381). -/
def rebuildLoop (html : List Char) : List TextSegment → List (List Char) → Nat → List Char
  | [], _, lastIndex => html.drop lastIndex
  | seg :: segs, ts, lastIndex =>
    jsSlice html lastIndex seg.start ++ ts.headD "undefined".data ++
      rebuildLoop html segs ts.tail seg.«end»

/-- `rebuildHtmlWithTranslations(html, segments, translations)` from
translate-product.js (lines 368–383). -/
def rebuildHtmlWithTranslations (html : List Char) (segments : List TextSegment)
    (translations : List (List Char)) : List Char :=
  rebuildLoop html segments translations 0

/-- Remove every `>` character; used to relate a segment's `text` to the
slice of the source it spans (the scanner skips `>` without closing a run). -/
def stripGt (l : List Char) : List Char :=
  l.filter (fun c => c ≠ '>')

/-- Sum of the range lengths `end - start` of a segment list. -/
def segRangeSum (segs : List TextSegment) : Nat :=
  (segs.map (fun s => s.«end» - s.start)).sum

/-- Sum of the lengths of a list of strings. -/
def strLenSum (ts : List (List Char)) : Nat :=
  (ts.map List.length).sum

/-- Position `p` lies in segment `s`'s half-open range `[start, end)`. -/
def covers (s : TextSegment) (p : Nat) : Prop :=
  s.start ≤ p ∧ p < s.«end»

instance (s : TextSegment) (p : Nat) : Decidable (covers s p) := by
  unfold covers; infer_instance

/-- Position `p` is a tag/structural position relative to segment list
`segs`: it is covered by no segment. -/
def tagPosition (segs : List TextSegment) (p : Nat) : Prop :=
  ¬ ∃ s ∈ segs, covers s p

/-- Ordering invariant of a segment list starting no earlier than `lo`:
each segment satisfies `lo ≤ start < end` and the next segment starts at
or after the current end. -/
def ChainFrom (lo : Nat) : List TextSegment → Prop
  | [] => True
  | s :: rest => lo ≤ s.start ∧ s.start < s.«end» ∧ ChainFrom s.«end» rest

/-- A markup string consisting entirely of tag regions: read outside a tag,
only `<` may appear (opening a region); inside a region any character is
allowed and `>` closes it.  The empty remainder is accepted in either
state. -/
def allTagRegions : Bool → List Char → Bool
  | _, [] => true
  | true, c :: rest => if c = '>' then allTagRegions false rest else allTagRegions true rest
  | false, c :: rest => if c = '<' then allTagRegions true rest else false

/- ### Handler control-flow model -/

/-- JavaScript truthiness of an optional string: `none` models
`null`/`undefined`, and the empty string is also falsy. -/
def falsyStr : Option String → Bool
  | none => true
  | some s => s.isEmpty

/-- The request body of `/api/translate-product`: `req.body` may be absent
(`req.body || {}`), and `handle` may be absent inside it. -/
structure ReqBody where
  handle : Option String

/-- The incoming request: its HTTP method and optional JSON body. -/
structure Req where
  method : String
  body : Option ReqBody

/-- The environment variables read by the handler. -/
structure Env where
  storeDomain : Option String
  adminToken : Option String
  openaiKey : Option String

/-- The product object returned by the Shopify `productByHandle` query;
each text field may be null. -/
structure Product where
  id : String
  title : Option String
  descriptionHtml : Option String
  seoTitle : Option String
  seoDescription : Option String

/-- Outcome of the Shopify product fetch: HTTP-level `ok`, whether the JSON
carried a truthy `errors` field, and `data?.productByHandle` (which may be
null even on success). -/
structure FetchResult where
  ok : Bool
  errors : Bool
  product : Option Product

/-- The JSON object parsed from the oracle's message content, after the
destructuring at lines 176–181; `segments_ar` is `some` exactly when the
field is an array. -/
structure TranslationData where
  title_ar : Option String
  seoTitle_ar : Option String
  seoDescription_ar : Option String
  segments_ar : Option (List (List Char))

/-- Outcome of the OpenAI call: HTTP-level `ok` and the parse of the
returned message content (`none` models `JSON.parse` throwing). -/
structure OracleResult where
  ok : Bool
  parsed : Option TranslationData

/-- Outcome of the Shopify `translationsRegister` mutation. -/
structure RegisterResult where
  ok : Bool
  errors : Bool
  userErrors : List String

/-- The distinct response branches of the handler, in source order; the
segment-count mismatch carries the expected and actual counts that the
code places in `details` (lines 202–205). -/
inductive RespKind where
  | methodNotAllowed
  | missingHandle
  | missingShopifyEnv
  | missingOpenaiKey
  | productApiError
  | notFound
  | oracleApiError
  | oracleParseError
  | missingSegmentsArray
  | segmentMismatch (expected got : Nat)
  | registerApiError
  | registerUserErrors
  | success
deriving DecidableEq, Repr

/-- What a run of the handler produced: the HTTP status, which branch
responded, whether the oracle call and the registration call were issued,
and the spliced markup if it was computed. -/
structure HandlerOutcome where
  status : Nat
  kind : RespKind
  oracleCalled : Bool
  registerCalled : Bool
  spliced : Option (List Char)
deriving DecidableEq, Repr

/-- The control flow of `handler` in translate-product.js (lines 6–315),
as a pure function of the request, the environment and the three external
responses.  Each early `return` of the source is one branch here, in the
same order; `oracleCalled` and `registerCalled` record whether control
reached the corresponding `fetch`. -/
def handler (req : Req) (env : Env) (fetchRes : FetchResult)
    (oracleRes : OracleResult) (regRes : RegisterResult) : HandlerOutcome :=
  if req.method ≠ "POST" then
    ⟨405, .methodNotAllowed, false, false, none⟩
  else if falsyStr ((req.body.map ReqBody.handle).getD none) then
    ⟨400, .missingHandle, false, false, none⟩
  else if falsyStr env.storeDomain ∨ falsyStr env.adminToken then
    ⟨500, .missingShopifyEnv, false, false, none⟩
  else if falsyStr env.openaiKey then
    ⟨500, .missingOpenaiKey, false, false, none⟩
  else if fetchRes.ok = false ∨ fetchRes.errors = true then
    ⟨500, .productApiError, false, false, none⟩
  else
    match fetchRes.product with
    | none => ⟨404, .notFound, false, false, none⟩
    | some product =>
      let descriptionHtml_en := (product.descriptionHtml.getD "").data
      let segments := extractTextSegments descriptionHtml_en
      if oracleRes.ok = false then
        ⟨500, .oracleApiError, true, false, none⟩
      else
        match oracleRes.parsed with
        | none => ⟨500, .oracleParseError, true, false, none⟩
        | some translationData =>
          match translationData.segments_ar with
          | none => ⟨500, .missingSegmentsArray, true, false, none⟩
          | some segments_ar =>
            if segments_ar.length ≠ segments.length then
              ⟨500, .segmentMismatch segments.length segments_ar.length, true, false, none⟩
            else
              let descriptionHtml_ar :=
                rebuildHtmlWithTranslations descriptionHtml_en segments segments_ar
              if regRes.ok = false ∨ regRes.errors = true then
                ⟨500, .registerApiError, true, true, some descriptionHtml_ar⟩
              else if regRes.userErrors ≠ [] then
                ⟨400, .registerUserErrors, true, true, some descriptionHtml_ar⟩
              else
                ⟨200, .success, true, true, some descriptionHtml_ar⟩

/- ### Helper lemmas about slices -/

/-- Extending a slice by one position appends the character at that
position. -/
theorem jsSlice_succ (m : List Char) (cs i : Nat) (ch : Char) (rest : List Char)
    (h : m.drop i = ch :: rest) (hcs : cs ≤ i) :
    jsSlice m cs (i + 1) = jsSlice m cs i ++ [ch] := by
  have hi : i < m.length := by
    by_contra hle
    have : m.drop i = [] := List.drop_eq_nil_iff.mpr (by omega)
    simp [this] at h
  have hget : m[i]? = some ch := by
    have := List.head?_drop m i
    rw [h] at this
    simpa using this.symm
  have htake : m.take (i + 1) = m.take i ++ [ch] := by
    rw [List.take_succ, hget]
    rfl
  have hlen : cs ≤ (m.take i).length := by
    rw [List.length_take]
    omega
  unfold jsSlice
  rw [htake, List.drop_append_of_le_length hlen]

/-- The one-character slice at a position equals that character. -/
theorem jsSlice_singleton (m : List Char) (i : Nat) (ch : Char) (rest : List Char)
    (h : m.drop i = ch :: rest) :
    jsSlice m i (i + 1) = [ch] := by
  have hi : i < m.length := by
    by_contra hle
    have : m.drop i = [] := List.drop_eq_nil_iff.mpr (by omega)
    simp [this] at h
  have hget : m[i]? = some ch := by
    have := List.head?_drop m i
    rw [h] at this
    simpa using this.symm
  have htake : m.take (i + 1) = m.take i ++ [ch] := by
    rw [List.take_succ, hget]
    rfl
  have hlen : (m.take i).length = i := by
    rw [List.length_take]
    omega
  unfold jsSlice
  rw [htake, List.drop_append_of_le_length (le_of_eq hlen.symm)]
  have hnil : (m.take i).drop i = [] := List.drop_eq_nil_iff.mpr (le_of_eq hlen)
  rw [hnil]
  rfl

/-- A slice followed by the drop from its right end reassembles the drop
from its left end. -/
theorem jsSlice_append_drop (m : List Char) (a b : Nat) (hab : a ≤ b)
    (hb : b ≤ m.length) :
    jsSlice m a b ++ m.drop b = m.drop a := by
  have hlen : (m.take b).length = b := by
    rw [List.length_take]
    omega
  conv_rhs => rw [← List.take_append_drop b m]
  rw [List.drop_append_of_le_length (by omega)]
  rfl

/-- Length of a slice whose right end is in bounds. -/
theorem jsSlice_length (m : List Char) (a b : Nat) (hb : b ≤ m.length) :
    (jsSlice m a b).length = b - a := by
  unfold jsSlice
  rw [List.length_drop, List.length_take]
  omega

/- ### Helper lemmas about ChainFrom -/

/-- Weakening the lower bound of a chain. -/
theorem chainFrom_mono {lo lo' : Nat} {S : List TextSegment} (h : lo' ≤ lo)
    (hc : ChainFrom lo S) : ChainFrom lo' S := by
  cases S with
  | nil => trivial
  | cons s rest =>
    obtain ⟨h1, h2, h3⟩ := hc
    exact ⟨by omega, h2, h3⟩

/-- Every segment of a chain starts at or after the lower bound. -/
theorem chainFrom_le_start {lo : Nat} {S : List TextSegment} (hc : ChainFrom lo S) :
    ∀ s ∈ S, lo ≤ s.start := by
  induction S generalizing lo with
  | nil => intro s hs; cases hs
  | cons t rest ih =>
    obtain ⟨h1, h2, h3⟩ := hc
    intro s hs
    cases hs with
    | head => exact h1
    | tail _ hmem =>
      have := ih (chainFrom_mono (show lo ≤ t.«end» by omega) h3) s hmem
      omega

/-- Every segment of a chain has a nonempty range. -/
theorem chainFrom_start_lt_end {lo : Nat} {S : List TextSegment} (hc : ChainFrom lo S) :
    ∀ s ∈ S, s.start < s.«end» := by
  induction S generalizing lo with
  | nil => intro s hs; cases hs
  | cons t rest ih =>
    obtain ⟨_, h2, h3⟩ := hc
    intro s hs
    cases hs with
    | head => exact h2
    | tail _ hmem => exact ih h3 s hmem

/-- In a chain, an earlier segment ends at or before a later one starts. -/
theorem chainFrom_get_le {lo : Nat} {S : List TextSegment} (hc : ChainFrom lo S) :
    ∀ (i j : Nat) (hi : i < S.length) (hj : j < S.length), i < j →
      (S.get ⟨i, hi⟩).«end» ≤ (S.get ⟨j, hj⟩).start := by
  induction S generalizing lo with
  | nil => intro i j hi; simp at hi
  | cons t rest ih =>
    obtain ⟨_, _, h3⟩ := hc
    intro i j hi hj hij
    match i, j with
    | 0, 0 => omega
    | 0, j' + 1 =>
      have hj' : j' < rest.length := by simpa using hj
      have hmem : rest.get ⟨j', hj'⟩ ∈ rest := List.get_mem rest j' hj'
      exact chainFrom_le_start h3 _ hmem
    | i' + 1, 0 => omega
    | i' + 1, j' + 1 =>
      have hi' : i' < rest.length := by simpa using hi
      have hj' : j' < rest.length := by simpa using hj
      exact ih h3 i' j' hi' hj' (by omega)

/-- Total range length of a chain bounded above by `hi` fits between the
chain's lower bound and `hi`. -/
theorem chainFrom_segRangeSum_le {lo hi : Nat} {S : List TextSegment}
    (hc : ChainFrom lo S) (hends : ∀ s ∈ S, s.«end» ≤ hi) (hlo : lo ≤ hi) :
    lo + segRangeSum S ≤ hi := by
  induction S generalizing lo with
  | nil => simpa [segRangeSum] using hlo
  | cons t rest ih =>
    obtain ⟨h1, h2, h3⟩ := hc
    have hthi : t.«end» ≤ hi := hends t (List.mem_cons_self t rest)
    have := ih h3 (fun s hs => hends s (List.mem_cons_of_mem t hs)) hthi
    simp only [segRangeSum, List.map_cons, List.sum_cons] at this ⊢
    omega

/- ### Helper lemmas about stripGt -/

/-- `stripGt` distributes over append. -/
theorem stripGt_append (l1 l2 : List Char) :
    stripGt (l1 ++ l2) = stripGt l1 ++ stripGt l2 :=
  List.filter_append l1 l2

/-- `stripGt` keeps a character other than `>`. -/
theorem stripGt_single_ne (ch : Char) (h : ch ≠ '>') : stripGt [ch] = [ch] := by
  simp [stripGt, h]

/-- `stripGt` drops a `>`. -/
theorem stripGt_single_gt : stripGt ['>'] = [] := by
  simp [stripGt]


/- ### Unfolding equations for the scanner -/

/-- One step of the scanner, written out by cases on the current
character, exactly as in the source. -/
theorem extractLoop_cons (ch : Char) (rest : List Char) (i : Nat) (ins : Bool)
    (txt : List Char) (cs : Nat) :
    extractLoop (ch :: rest) i ins txt cs =
      if ch = '<' then
        if ins = false ∧ txt ≠ [] then
          ⟨cs, i, txt⟩ :: extractLoop rest (i + 1) true [] cs
        else extractLoop rest (i + 1) true txt cs
      else if ch = '>' then extractLoop rest (i + 1) false txt cs
      else if ins = false then
        if txt = [] then extractLoop rest (i + 1) ins [ch] i
        else extractLoop rest (i + 1) ins (txt ++ [ch]) cs
      else extractLoop rest (i + 1) ins txt cs := rfl

/-- Final flush of the scanner at the end of the input. -/
theorem extractLoop_nil (i : Nat) (ins : Bool) (txt : List Char) (cs : Nat) :
    extractLoop [] i ins txt cs =
      if ins = false ∧ txt ≠ [] then [⟨cs, i, txt⟩] else [] := rfl

/-- A `<` with an open run closes it. -/
theorem extractLoop_flush (ch : Char) (rest : List Char) (i : Nat) (ins : Bool)
    (txt : List Char) (cs : Nat) (h1 : ch = '<') (h2 : ins = false ∧ txt ≠ []) :
    extractLoop (ch :: rest) i ins txt cs =
      ⟨cs, i, txt⟩ :: extractLoop rest (i + 1) true [] cs := by
  rw [extractLoop_cons, if_pos h1, if_pos h2]

/-- A `<` with no open run only sets the tag state. -/
theorem extractLoop_noflush (ch : Char) (rest : List Char) (i : Nat) (ins : Bool)
    (txt : List Char) (cs : Nat) (h1 : ch = '<') (h2 : ¬(ins = false ∧ txt ≠ [])) :
    extractLoop (ch :: rest) i ins txt cs = extractLoop rest (i + 1) true txt cs := by
  rw [extractLoop_cons, if_pos h1, if_neg h2]

/-- A `>` clears the tag state and leaves the run untouched. -/
theorem extractLoop_gt (ch : Char) (rest : List Char) (i : Nat) (ins : Bool)
    (txt : List Char) (cs : Nat) (h1 : ¬ ch = '<') (h2 : ch = '>') :
    extractLoop (ch :: rest) i ins txt cs = extractLoop rest (i + 1) false txt cs := by
  rw [extractLoop_cons, if_neg h1, if_pos h2]

/-- An ordinary character outside a tag with an empty run opens a run at
the current index. -/
theorem extractLoop_start (ch : Char) (rest : List Char) (i : Nat) (cs : Nat)
    (h1 : ¬ ch = '<') (h2 : ¬ ch = '>') :
    extractLoop (ch :: rest) i false [] cs = extractLoop rest (i + 1) false [ch] i := by
  rw [extractLoop_cons, if_neg h1, if_neg h2]
  rfl

/-- An ordinary character outside a tag extends the open run. -/
theorem extractLoop_extend (ch : Char) (rest : List Char) (i : Nat) (txt : List Char)
    (cs : Nat) (h1 : ¬ ch = '<') (h2 : ¬ ch = '>') (h3 : txt ≠ []) :
    extractLoop (ch :: rest) i false txt cs =
      extractLoop rest (i + 1) false (txt ++ [ch]) cs := by
  rw [extractLoop_cons, if_neg h1, if_neg h2, if_pos rfl, if_neg h3]

/-- An ordinary character inside a tag is skipped. -/
theorem extractLoop_inside (ch : Char) (rest : List Char) (i : Nat) (txt : List Char)
    (cs : Nat) (h1 : ¬ ch = '<') (h2 : ¬ ch = '>') :
    extractLoop (ch :: rest) i true txt cs = extractLoop rest (i + 1) true txt cs := by
  rw [extractLoop_cons, if_neg h1, if_neg h2]
  rfl

/- ### Main invariant of the extraction scan -/

/-- Invariant of `extractLoop`: scanning the remainder `m.drop i` from a
state whose open run (if any) satisfies `cs < i` and accumulates exactly
the `>`-stripped slice `[cs, i)`, the emitted segments form a chain
(starting at `cs` when a run is open, else at or after `i`), end within
the string, and each one's text is the `>`-stripped slice of its range. -/
theorem extractLoop_invariant (m : List Char) (rest : List Char) :
    ∀ (i : Nat) (ins : Bool) (txt : List Char) (cs : Nat),
    m.drop i = rest → i ≤ m.length →
    (ins = true → txt = []) →
    (txt ≠ [] → cs < i ∧ txt = stripGt (jsSlice m cs i)) →
    (txt = [] → ChainFrom i (extractLoop rest i ins txt cs)) ∧
    (txt ≠ [] → ChainFrom cs (extractLoop rest i ins txt cs)) ∧
    ∀ s ∈ extractLoop rest i ins txt cs,
      s.«end» ≤ m.length ∧ s.text = stripGt (jsSlice m s.start s.«end») := by
  induction rest with
  | nil =>
    intro i ins txt cs hdrop hile hins hrun
    have hlen : m.length ≤ i := List.drop_eq_nil_iff.mp hdrop
    by_cases hcond : ins = false ∧ txt ≠ []
    · rw [extractLoop_nil, if_pos hcond]
      obtain ⟨hcs, htxteq⟩ := hrun hcond.2
      refine ⟨fun h => absurd h hcond.2, fun _ => ⟨le_refl cs, hcs, trivial⟩, ?_⟩
      intro s hs
      rcases List.mem_singleton.mp hs with rfl
      exact ⟨show i ≤ m.length by omega, htxteq⟩
    · rw [extractLoop_nil, if_neg hcond]
      exact ⟨fun _ => trivial, fun _ => trivial, fun s hs => absurd hs (List.not_mem_nil s)⟩
  | cons ch rest ih =>
    intro i ins txt cs hdrop hile hins hrun
    have hi1 : i < m.length := by
      by_contra hcon
      have hnil : m.drop i = [] := List.drop_eq_nil_iff.mpr (by omega)
      rw [hnil] at hdrop
      cases hdrop
    have hdrop1 : m.drop (i + 1) = rest := by
      have h2 : m.drop (i + 1) = List.drop 1 (m.drop i) := by
        rw [List.drop_drop, Nat.add_comm]
      rw [h2, hdrop]
      simp
    by_cases hlt : ch = '<'
    · by_cases hcond : ins = false ∧ txt ≠ []
      · -- the `<` closes the open run
        rw [extractLoop_flush ch rest i ins txt cs hlt hcond]
        obtain ⟨hcs, htxteq⟩ := hrun hcond.2
        obtain ⟨hrc1, _, hrc3⟩ := ih (i + 1) true [] cs hdrop1 (by omega)
          (fun _ => rfl) (fun h => absurd rfl h)
        have hchain := chainFrom_mono (show i ≤ i + 1 by omega) (hrc1 rfl)
        refine ⟨fun h => absurd h hcond.2, fun _ => ⟨le_refl cs, hcs, hchain⟩, ?_⟩
        intro s hs
        rcases List.mem_cons.mp hs with rfl | hmem
        · exact ⟨show i ≤ m.length by omega, htxteq⟩
        · exact hrc3 s hmem
      · -- the `<` only sets the tag state
        have htxt : txt = [] := by
          by_contra h
          cases ins
          · exact hcond ⟨rfl, h⟩
          · exact h (hins rfl)
        subst htxt
        rw [extractLoop_noflush ch rest i ins [] cs hlt hcond]
        obtain ⟨hrc1, _, hrc3⟩ := ih (i + 1) true [] cs hdrop1 (by omega)
          (fun _ => rfl) (fun h => absurd rfl h)
        exact ⟨fun _ => chainFrom_mono (by omega) (hrc1 rfl), fun h => absurd rfl h, hrc3⟩
    · by_cases hgt : ch = '>'
      · -- the `>` clears the tag state without touching the run
        rw [extractLoop_gt ch rest i ins txt cs hlt hgt]
        have hrun1 : txt ≠ [] → cs < i + 1 ∧ txt = stripGt (jsSlice m cs (i + 1)) := by
          intro h
          obtain ⟨hcs, htxteq⟩ := hrun h
          refine ⟨by omega, ?_⟩
          rw [jsSlice_succ m cs i ch rest hdrop (by omega), stripGt_append, hgt,
            stripGt_single_gt, List.append_nil]
          exact htxteq
        obtain ⟨hrc1, hrc2, hrc3⟩ := ih (i + 1) false txt cs hdrop1 (by omega)
          (fun h => Bool.noConfusion h) hrun1
        exact ⟨fun h => chainFrom_mono (by omega) (hrc1 h), hrc2, hrc3⟩
      · by_cases hins2 : ins = false
        · subst hins2
          by_cases htxt : txt = []
          · -- the character opens a new run at position i
            subst htxt
            rw [extractLoop_start ch rest i cs hlt hgt]
            have hrun1 : ([ch] : List Char) ≠ [] →
                i < i + 1 ∧ [ch] = stripGt (jsSlice m i (i + 1)) := by
              intro _
              refine ⟨by omega, ?_⟩
              rw [jsSlice_singleton m i ch rest hdrop, stripGt_single_ne ch hgt]
            obtain ⟨_, hrc2, hrc3⟩ := ih (i + 1) false [ch] i hdrop1 (by omega)
              (fun h => Bool.noConfusion h) hrun1
            exact ⟨fun _ => hrc2 (by simp), fun h => absurd rfl h, hrc3⟩
          · -- the character extends the open run
            rw [extractLoop_extend ch rest i txt cs hlt hgt htxt]
            obtain ⟨hcs, htxteq⟩ := hrun htxt
            have hrun1 : txt ++ [ch] ≠ [] →
                cs < i + 1 ∧ txt ++ [ch] = stripGt (jsSlice m cs (i + 1)) := by
              intro _
              refine ⟨by omega, ?_⟩
              rw [jsSlice_succ m cs i ch rest hdrop (by omega), stripGt_append,
                stripGt_single_ne ch hgt, htxteq]
            obtain ⟨_, hrc2, hrc3⟩ := ih (i + 1) false (txt ++ [ch]) cs hdrop1 (by omega)
              (fun h => Bool.noConfusion h) hrun1
            exact ⟨fun h => absurd h htxt, fun _ => hrc2 (by simp), hrc3⟩
        · -- inside a tag: the character is skipped
          have hins3 : ins = true := by
            cases ins
            · exact absurd rfl hins2
            · rfl
          subst hins3
          have htxt : txt = [] := hins rfl
          subst htxt
          rw [extractLoop_inside ch rest i [] cs hlt hgt]
          obtain ⟨hrc1, _, hrc3⟩ := ih (i + 1) true [] cs hdrop1 (by omega)
            (fun _ => rfl) (fun h => absurd rfl h)
          exact ⟨fun _ => chainFrom_mono (by omega) (hrc1 rfl), fun h => absurd rfl h, hrc3⟩

/- ### Top-level properties of the extractor -/

/-- The segment list of any markup is a chain starting at 0. -/
theorem extract_chain (m : List Char) : ChainFrom 0 (extractTextSegments m) :=
  (extractLoop_invariant m m 0 false [] 0 rfl (Nat.zero_le _) (fun _ => rfl)
    (fun h => absurd rfl h)).1 rfl

/-- Every emitted segment ends within the string and its text is the
`>`-stripped slice of its range. -/
theorem extract_segProps (m : List Char) :
    ∀ s ∈ extractTextSegments m,
      s.«end» ≤ m.length ∧ s.text = stripGt (jsSlice m s.start s.«end») :=
  (extractLoop_invariant m m 0 false [] 0 rfl (Nat.zero_le _) (fun _ => rfl)
    (fun h => absurd rfl h)).2.2

/- ### Properties of the splicer -/

/-- Feeding each segment's own slice back into the splicer reconstructs
the drop of the source from the cursor. -/
theorem rebuildLoop_map_text (m : List Char) :
    ∀ (S : List TextSegment) (lastIdx : Nat), ChainFrom lastIdx S →
    (∀ s ∈ S, s.«end» ≤ m.length ∧ s.text = jsSlice m s.start s.«end») →
    rebuildLoop m S (S.map TextSegment.text) lastIdx = m.drop lastIdx := by
  intro S
  induction S with
  | nil => intro lastIdx _ _; rfl
  | cons s S' ih =>
    intro lastIdx hchain hgood
    obtain ⟨hlo, hlt, hrest⟩ := hchain
    obtain ⟨hend, htext⟩ := hgood s (List.mem_cons_self s S')
    have hrec := ih s.«end» hrest (fun t ht => hgood t (List.mem_cons_of_mem s ht))
    show jsSlice m lastIdx s.start ++ (s.text :: S'.map TextSegment.text).headD _ ++
      rebuildLoop m S' (s.text :: S'.map TextSegment.text).tail s.«end» = m.drop lastIdx
    rw [List.headD_cons, List.tail_cons, hrec, htext, List.append_assoc,
      jsSlice_append_drop m s.start s.«end» (by omega) hend,
      jsSlice_append_drop m lastIdx s.start (by omega) (by omega)]

/-- Length bookkeeping of the splicing loop: output length plus replaced
range lengths plus the cursor equals source length plus translation
lengths. -/
theorem rebuildLoop_length (m : List Char) :
    ∀ (S : List TextSegment) (T : List (List Char)) (lastIdx : Nat),
    ChainFrom lastIdx S → (∀ s ∈ S, s.«end» ≤ m.length) → T.length = S.length →
    lastIdx ≤ m.length →
    (rebuildLoop m S T lastIdx).length + segRangeSum S + lastIdx =
      m.length + strLenSum T := by
  intro S
  induction S with
  | nil =>
    intro T lastIdx _ _ hT hle
    have hTnil : T = [] := List.eq_nil_of_length_eq_zero hT
    subst hTnil
    show (m.drop lastIdx).length + segRangeSum [] + lastIdx = m.length + strLenSum []
    rw [List.length_drop]
    simp [segRangeSum, strLenSum]
    omega
  | cons s S' ih =>
    intro T lastIdx hchain hends hT hle
    obtain ⟨hlo, hlt, hrest⟩ := hchain
    have hend : s.«end» ≤ m.length := hends s (List.mem_cons_self s S')
    cases T with
    | nil => cases hT
    | cons t T' =>
      have hT' : T'.length = S'.length := by
        simpa using hT
      have hrec := ih T' s.«end» hrest (fun u hu => hends u (List.mem_cons_of_mem s hu))
        hT' (by omega)
      show (jsSlice m lastIdx s.start ++ (t :: T').headD _ ++
          rebuildLoop m S' (t :: T').tail s.«end»).length + segRangeSum (s :: S') +
          lastIdx = m.length + strLenSum (t :: T')
      rw [List.headD_cons, List.tail_cons, List.length_append, List.length_append,
        jsSlice_length m lastIdx s.start (by omega)]
      simp only [segRangeSum, strLenSum, List.map_cons, List.sum_cons] at hrec ⊢
      omega

/-- Whatever the translations are, the splicing loop ends with the
characters of the source that lie at or after every segment's end. -/
theorem rebuildLoop_suffix (m : List Char) :
    ∀ (S : List TextSegment) (T : List (List Char)) (lastIdx j : Nat),
    (∀ s ∈ S, s.«end» ≤ j) → lastIdx ≤ j →
    (m.drop j).IsSuffix (rebuildLoop m S T lastIdx) := by
  intro S
  induction S with
  | nil =>
    intro T lastIdx j _ hle
    show (m.drop j).IsSuffix (m.drop lastIdx)
    have hdd := List.drop_drop (j - lastIdx) lastIdx m
    have heq : lastIdx + (j - lastIdx) = j := by omega
    rw [heq] at hdd
    rw [← hdd]
    exact List.drop_suffix (j - lastIdx) (m.drop lastIdx)
  | cons s S' ih =>
    intro T lastIdx j hends hle
    have hrec := ih T.tail s.«end» j (fun u hu => hends u (List.mem_cons_of_mem s hu))
      (hends s (List.mem_cons_self s S'))
    exact hrec.trans (List.suffix_append _ _)

/- ### Scanning with no closing bracket emits nothing -/

/-- While inside a tag, if no `>` ever occurs in the remainder, the
scanner emits no further segment. -/
theorem extractLoop_inside_no_gt :
    ∀ (b : List Char) (i : Nat) (txt : List Char) (cs : Nat),
    '>' ∉ b → extractLoop b i true txt cs = [] := by
  intro b
  induction b with
  | nil =>
    intro i txt cs _
    rw [extractLoop_nil, if_neg]
    rintro ⟨h, _⟩
    cases h
  | cons c b' ih =>
    intro i txt cs hng
    have hcne : ¬ c = '>' := fun h => hng (h ▸ List.mem_cons_self c b')
    have hng' : '>' ∉ b' := fun h => hng (List.mem_cons_of_mem c h)
    by_cases hlt : c = '<'
    · rw [extractLoop_noflush c b' i true txt cs hlt (by rintro ⟨h, _⟩; cases h)]
      exact ih (i + 1) txt cs hng'
    · rw [extractLoop_inside c b' i txt cs hlt hcne]
      exact ih (i + 1) txt cs hng'

/-- If the input contains a `<` that no later `>` answers, every emitted
segment ends at or before that `<`. -/
theorem extractLoop_unclosed_ends :
    ∀ (a b : List Char) (i : Nat) (ins : Bool) (txt : List Char) (cs : Nat),
    '>' ∉ b →
    ∀ s ∈ extractLoop (a ++ '<' :: b) i ins txt cs, s.«end» ≤ i + a.length := by
  intro a
  induction a with
  | nil =>
    intro b i ins txt cs hng s hs
    rw [List.nil_append] at hs
    by_cases hcond : ins = false ∧ txt ≠ []
    · rw [extractLoop_flush '<' b i ins txt cs rfl hcond,
        extractLoop_inside_no_gt b (i + 1) [] cs hng] at hs
      rcases List.mem_singleton.mp hs with rfl
      show i ≤ i + List.length []
      simp
    · rw [extractLoop_noflush '<' b i ins txt cs rfl hcond,
        extractLoop_inside_no_gt b (i + 1) txt cs hng] at hs
      cases hs
  | cons c a' ih =>
    intro b i ins txt cs hng s hs
    rw [List.cons_append] at hs
    have hlen : i + (c :: a').length = (i + 1) + a'.length := by
      simp
      omega
    by_cases hlt : c = '<'
    · by_cases hcond : ins = false ∧ txt ≠ []
      · rw [extractLoop_flush c (a' ++ '<' :: b) i ins txt cs hlt hcond] at hs
        rcases List.mem_cons.mp hs with rfl | hmem
        · show i ≤ i + (c :: a').length
          omega
        · have := ih b (i + 1) true [] cs hng s hmem
          omega
      · rw [extractLoop_noflush c (a' ++ '<' :: b) i ins txt cs hlt hcond] at hs
        have := ih b (i + 1) true txt cs hng s hs
        omega
    · by_cases hgt : c = '>'
      · rw [extractLoop_gt c (a' ++ '<' :: b) i ins txt cs hlt hgt] at hs
        have := ih b (i + 1) false txt cs hng s hs
        omega
      · by_cases hins2 : ins = false
        · subst hins2
          by_cases htxt : txt = []
          · subst htxt
            rw [extractLoop_start c (a' ++ '<' :: b) i cs hlt hgt] at hs
            have := ih b (i + 1) false [c] i hng s hs
            omega
          · rw [extractLoop_extend c (a' ++ '<' :: b) i txt cs hlt hgt htxt] at hs
            have := ih b (i + 1) false (txt ++ [c]) cs hng s hs
            omega
        · have hins3 : ins = true := by
            cases ins
            · exact absurd rfl hins2
            · rfl
          subst hins3
          rw [extractLoop_inside c (a' ++ '<' :: b) i txt cs hlt hgt] at hs
          have := ih b (i + 1) true txt cs hng s hs
          omega

/- ### Tag-only markup yields no segments -/

/-- Scanning a string that consists entirely of tag regions (from the
matching state) emits nothing. -/
theorem extractLoop_allTag :
    ∀ (l : List Char) (i : Nat) (ins : Bool) (cs : Nat),
    allTagRegions ins l = true → extractLoop l i ins [] cs = [] := by
  intro l
  induction l with
  | nil =>
    intro i ins cs _
    rw [extractLoop_nil, if_neg]
    rintro ⟨_, h⟩
    exact h rfl
  | cons c l' ih =>
    intro i ins cs hall
    cases ins with
    | true =>
      by_cases hgt : c = '>'
      · have hlt : ¬ c = '<' := by
          rw [hgt]
          decide
        rw [extractLoop_gt c l' i true [] cs hlt hgt]
        refine ih (i + 1) false cs ?_
        simpa [allTagRegions, hgt] using hall
      · have hall' : allTagRegions true l' = true := by
          simpa [allTagRegions, hgt] using hall
        by_cases hlt : c = '<'
        · rw [extractLoop_noflush c l' i true [] cs hlt (by rintro ⟨h, _⟩; cases h)]
          exact ih (i + 1) true cs hall'
        · rw [extractLoop_inside c l' i [] cs hlt hgt]
          exact ih (i + 1) true cs hall'
    | false =>
      by_cases hlt : c = '<'
      · rw [extractLoop_noflush c l' i false [] cs hlt (by rintro ⟨_, h⟩; exact h rfl)]
        refine ih (i + 1) true cs ?_
        simpa [allTagRegions, hlt] using hall
      · exfalso
        simp [allTagRegions, hlt] at hall

/- ### Tag-free markup yields one segment -/

/-- Scanning a remainder containing no bracket from an open run appends
the whole remainder to the run and flushes it at the end. -/
theorem extractLoop_no_tags :
    ∀ (l : List Char) (i : Nat) (txt : List Char) (cs : Nat),
    '<' ∉ l → '>' ∉ l → txt ≠ [] →
    extractLoop l i false txt cs = [⟨cs, i + l.length, txt ++ l⟩] := by
  intro l
  induction l with
  | nil =>
    intro i txt cs _ _ htxt
    rw [extractLoop_nil, if_pos ⟨rfl, htxt⟩]
    simp
  | cons c l' ih =>
    intro i txt cs hnl hng htxt
    have hlt : ¬ c = '<' := fun h => hnl (h ▸ List.mem_cons_self c l')
    have hgt : ¬ c = '>' := fun h => hng (h ▸ List.mem_cons_self c l')
    have hnl' : '<' ∉ l' := fun h => hnl (List.mem_cons_of_mem c h)
    have hng' : '>' ∉ l' := fun h => hng (List.mem_cons_of_mem c h)
    rw [extractLoop_extend c l' i txt cs hlt hgt htxt,
      ih (i + 1) (txt ++ [c]) cs hnl' hng' (by simp)]
    have h1 : i + 1 + l'.length = i + (c :: l').length := by
      simp
      omega
    have h2 : (txt ++ [c]) ++ l' = txt ++ c :: l' := by
      simp
    rw [h1, h2]

/- ### Claim theorems -/

/-- C1, counterexample: the round trip fails on `"a>b"`.  The bare `>`
outside any tag is scanned over without closing the run, so the single
segment is `{start 0, end 3, text "ab"}` and splicing the texts back
yields `"ab"`, not `"a>b"`. -/
theorem splice_roundtrip_C1_counterexample :
    rebuildHtmlWithTranslations "a>b".data (extractTextSegments "a>b".data)
      ((extractTextSegments "a>b".data).map TextSegment.text) ≠ "a>b".data := by
  decide

/-- C1, amended: for every markup string in which each extracted
segment's text equals the slice `markup[start:end)` of its range
(equivalently, no `>` occurs strictly inside a text run), splicing the
original segment texts back into the markup reproduces it exactly; this
covers the empty string, tag-only strings and `>`-free text-only
strings. -/
theorem splice_roundtrip_C1 (m : List Char)
    (h : ∀ s ∈ extractTextSegments m, s.text = jsSlice m s.start s.«end») :
    rebuildHtmlWithTranslations m (extractTextSegments m)
      ((extractTextSegments m).map TextSegment.text) = m := by
  have hchain := extract_chain m
  have hgood : ∀ s ∈ extractTextSegments m,
      s.«end» ≤ m.length ∧ s.text = jsSlice m s.start s.«end» :=
    fun s hs => ⟨(extract_segProps m s hs).1, h s hs⟩
  have hmain := rebuildLoop_map_text m (extractTextSegments m) 0 hchain hgood
  simpa [rebuildHtmlWithTranslations] using hmain

/-- C1 witness: the round trip at the concrete scenario markup. -/
theorem splice_roundtrip_C1_witness :
    rebuildHtmlWithTranslations "<p>Hello <strong>World</strong></p>".data
      (extractTextSegments "<p>Hello <strong>World</strong></p>".data)
      ((extractTextSegments "<p>Hello <strong>World</strong></p>".data).map
        TextSegment.text) = "<p>Hello <strong>World</strong></p>".data :=
  splice_roundtrip_C1 "<p>Hello <strong>World</strong></p>".data (by decide)

/-- C2: whenever the oracle's translated-segment list differs in length
from the extracted segment list, the handler responds 500 with the
segment-count-mismatch error carrying both the expected and the actual
count, produces no spliced output, and issues no registration call. -/
theorem handler_mismatch_C2 (req : Req) (env : Env) (fetchRes : FetchResult)
    (oracleRes : OracleResult) (regRes : RegisterResult) (p : Product)
    (td : TranslationData) (l : List (List Char)) (b : ReqBody)
    (h1 : req.method = "POST")
    (h2a : req.body = some b)
    (h2 : falsyStr b.handle = false)
    (h3 : falsyStr env.storeDomain = false)
    (h4 : falsyStr env.adminToken = false)
    (h5 : falsyStr env.openaiKey = false)
    (h6 : fetchRes.ok = true) (h7 : fetchRes.errors = false)
    (h8 : fetchRes.product = some p)
    (h9 : oracleRes.ok = true) (h10 : oracleRes.parsed = some td)
    (h11 : td.segments_ar = some l)
    (h12 : l.length ≠ (extractTextSegments (p.descriptionHtml.getD "").data).length) :
    handler req env fetchRes oracleRes regRes =
      ⟨500, .segmentMismatch
        (extractTextSegments (p.descriptionHtml.getD "").data).length l.length,
        true, false, none⟩ := by
  simp [handler, h1, h2a, h2, h3, h4, h5, h6, h7, h8, h9, h10, h11, h12]

/-- C2 witness: two extracted segments against one translated segment
produce `segmentMismatch 2 1` with no splice and no registration. -/
theorem handler_mismatch_C2_witness :
    handler ⟨"POST", some ⟨some "watch-1"⟩⟩
      ⟨some "store.example.com", some "token", some "key"⟩
      ⟨true, false, some ⟨"gid1", some "Watch",
        some "<p>Hello <strong>World</strong></p>", none, none⟩⟩
      ⟨true, some ⟨some "t", none, none, some ["مرحبا ".data]⟩⟩
      ⟨true, false, []⟩ =
      ⟨500, .segmentMismatch 2 1, true, false, none⟩ :=
  handler_mismatch_C2 ⟨"POST", some ⟨some "watch-1"⟩⟩
    ⟨some "store.example.com", some "token", some "key"⟩
    ⟨true, false, some ⟨"gid1", some "Watch",
      some "<p>Hello <strong>World</strong></p>", none, none⟩⟩
    ⟨true, some ⟨some "t", none, none, some ["مرحبا ".data]⟩⟩
    ⟨true, false, []⟩
    ⟨"gid1", some "Watch", some "<p>Hello <strong>World</strong></p>", none, none⟩
    ⟨some "t", none, none, some ["مرحبا ".data]⟩
    ["مرحبا ".data] ⟨some "watch-1"⟩
    rfl rfl (by decide) (by decide) (by decide) (by decide) rfl rfl rfl rfl rfl rfl
    (by decide)

/-- C3: for every markup string the extracted segments have
`start < end`, end within the string, are pairwise disjoint with
strictly increasing starts, and every position of the string lies either
in exactly one segment range or in the complementary tag region. -/
theorem extract_invariants_C3 (m : List Char) :
    (∀ s ∈ extractTextSegments m, s.start < s.«end» ∧ s.«end» ≤ m.length) ∧
    (∀ (i j : Nat) (hi : i < (extractTextSegments m).length)
        (hj : j < (extractTextSegments m).length), i < j →
      ((extractTextSegments m).get ⟨i, hi⟩).«end» ≤
          ((extractTextSegments m).get ⟨j, hj⟩).start ∧
        ((extractTextSegments m).get ⟨i, hi⟩).start <
          ((extractTextSegments m).get ⟨j, hj⟩).start) ∧
    (∀ p, p < m.length →
      (∃ s ∈ extractTextSegments m, covers s p) ∨
        tagPosition (extractTextSegments m) p) ∧
    (∀ (p i j : Nat) (hi : i < (extractTextSegments m).length)
        (hj : j < (extractTextSegments m).length),
      covers ((extractTextSegments m).get ⟨i, hi⟩) p →
      covers ((extractTextSegments m).get ⟨j, hj⟩) p → i = j) := by
  have hchain := extract_chain m
  refine ⟨?_, ?_, ?_, ?_⟩
  · intro s hs
    exact ⟨chainFrom_start_lt_end hchain s hs, (extract_segProps m s hs).1⟩
  · intro i j hi hj hij
    have h1 := chainFrom_get_le hchain i j hi hj hij
    have h2 := chainFrom_start_lt_end hchain _ (List.get_mem _ i hi)
    exact ⟨h1, by omega⟩
  · intro p _
    by_cases h : ∃ s ∈ extractTextSegments m, covers s p
    · exact Or.inl h
    · exact Or.inr h
  · intro p i j hi hj hci hcj
    by_contra hne
    rcases Nat.lt_or_ge i j with hij | hij
    · have hle := chainFrom_get_le hchain i j hi hj hij
      unfold covers at hci hcj
      omega
    · have hij2 : j < i := by omega
      have hle := chainFrom_get_le hchain j i hj hi hij2
      unfold covers at hci hcj
      omega

/-- C3 witness: the invariants at the single segment of `"<p>a</p>"`. -/
theorem extract_invariants_C3_witness :
    (⟨3, 4, "a".data⟩ : TextSegment).start < (⟨3, 4, "a".data⟩ : TextSegment).«end» ∧
    (⟨3, 4, "a".data⟩ : TextSegment).«end» ≤ "<p>a</p>".data.length :=
  (extract_invariants_C3 "<p>a</p>".data).1 ⟨3, 4, "a".data⟩ (by decide)

/-- C4: for every markup and every translated list of matching length,
the spliced output's length is the markup's length minus the sum of the
original segment lengths (the replaced ranges `end - start`) plus the
sum of the translated string lengths. -/
theorem splice_length_C4 (m : List Char) (T : List (List Char))
    (hT : T.length = (extractTextSegments m).length) :
    (rebuildHtmlWithTranslations m (extractTextSegments m) T).length =
      m.length - segRangeSum (extractTextSegments m) + strLenSum T := by
  have hchain := extract_chain m
  have hends : ∀ s ∈ extractTextSegments m, s.«end» ≤ m.length :=
    fun s hs => (extract_segProps m s hs).1
  have hmain := rebuildLoop_length m (extractTextSegments m) T 0 hchain hends hT
    (Nat.zero_le _)
  have hbound := chainFrom_segRangeSum_le hchain hends (Nat.zero_le _)
  unfold rebuildHtmlWithTranslations
  omega

/-- C4 witness: the length equation at the concrete scenario input. -/
theorem splice_length_C4_witness :
    (rebuildHtmlWithTranslations "<p>Hello <strong>World</strong></p>".data
      (extractTextSegments "<p>Hello <strong>World</strong></p>".data)
      ["مرحبا ".data, "العالم".data]).length =
      "<p>Hello <strong>World</strong></p>".data.length -
        segRangeSum (extractTextSegments "<p>Hello <strong>World</strong></p>".data) +
        strLenSum ["مرحبا ".data, "العالم".data] :=
  splice_length_C4 "<p>Hello <strong>World</strong></p>".data
    ["مرحبا ".data, "العالم".data] (by decide)

/-- C5: on `"<p>Hello <strong>World</strong></p>"` extraction yields
exactly the segments `"Hello "` at `[3,9)` and `"World"` at `[17,22)`,
and splicing with the given Arabic translations produces exactly
`"<p>مرحبا <strong>العالم</strong></p>"`. -/
theorem scenario_C5 :
    extractTextSegments "<p>Hello <strong>World</strong></p>".data =
      [⟨3, 9, "Hello ".data⟩, ⟨17, 22, "World".data⟩] ∧
    rebuildHtmlWithTranslations "<p>Hello <strong>World</strong></p>".data
      (extractTextSegments "<p>Hello <strong>World</strong></p>".data)
      ["مرحبا ".data, "العالم".data] =
      "<p>مرحبا <strong>العالم</strong></p>".data := by
  decide

/-- C6, counterexample: the empty string contains neither `<` nor `>`,
yet extraction yields no segment at all instead of one segment spanning
the whole (empty) string. -/
theorem tagfree_single_segment_C6_counterexample :
    '<' ∉ ("" : String).data ∧ '>' ∉ ("" : String).data ∧
    extractTextSegments "".data ≠ [⟨0, "".data.length, "".data⟩] := by
  decide

/-- C6, amended: for every NONEMPTY markup string containing neither `<`
nor `>`, extraction yields exactly one segment spanning the whole string
(start 0, end `length markup`, text the string itself); the empty string
yields no segments. -/
theorem tagfree_single_segment_C6 (m : List Char) (hne : m ≠ [])
    (hlt : '<' ∉ m) (hgt : '>' ∉ m) :
    extractTextSegments m = [⟨0, m.length, m⟩] := by
  cases m with
  | nil => exact absurd rfl hne
  | cons c r =>
    have hclt : ¬ c = '<' := fun h => hlt (h ▸ List.mem_cons_self c r)
    have hcgt : ¬ c = '>' := fun h => hgt (h ▸ List.mem_cons_self c r)
    have hrlt : '<' ∉ r := fun h => hlt (List.mem_cons_of_mem c h)
    have hrgt : '>' ∉ r := fun h => hgt (List.mem_cons_of_mem c h)
    show extractLoop (c :: r) 0 false [] 0 = _
    rw [extractLoop_start c r 0 0 hclt hcgt,
      extractLoop_no_tags r 1 [c] 0 hrlt hrgt (by simp)]
    have h1 : 1 + r.length = (c :: r).length := by
      rw [List.length_cons, Nat.add_comm]
    have h2 : [c] ++ r = c :: r := rfl
    rw [h1, h2]

/-- C6 witness: `"Hello"` is one whole-string segment. -/
theorem tagfree_single_segment_C6_witness :
    extractTextSegments "Hello".data = [⟨0, "Hello".data.length, "Hello".data⟩] :=
  tagfree_single_segment_C6 "Hello".data (by decide) (by decide) (by decide)

/-- C7: `"<p></p>"` yields zero segments; splicing any markup with an
empty segment list and empty translated list returns it unchanged; and
every markup consisting entirely of tag regions yields zero segments. -/
theorem empty_segments_C7 :
    extractTextSegments "<p></p>".data = [] ∧
    rebuildHtmlWithTranslations "<p></p>".data [] [] = "<p></p>".data ∧
    (∀ m : List Char, allTagRegions false m = true → extractTextSegments m = []) ∧
    (∀ m : List Char, rebuildHtmlWithTranslations m [] [] = m) := by
  refine ⟨by decide, by decide, ?_, ?_⟩
  · intro m hall
    exact extractLoop_allTag m 0 false 0 hall
  · intro m
    rfl

/-- C7 witness: the tag-only markup `"<i></i>"` yields no segments. -/
theorem empty_segments_C7_witness :
    extractTextSegments "<i></i>".data = [] :=
  empty_segments_C7.2.2.1 "<i></i>".data (by decide)

/-- C8: when the product fetch succeeds with no errors but yields no
product, the handler responds 404 NotFound without calling the oracle
(and without registering or splicing anything). -/
theorem handler_notfound_C8 (req : Req) (env : Env) (fetchRes : FetchResult)
    (oracleRes : OracleResult) (regRes : RegisterResult) (b : ReqBody)
    (h1 : req.method = "POST")
    (h2a : req.body = some b)
    (h2 : falsyStr b.handle = false)
    (h3 : falsyStr env.storeDomain = false)
    (h4 : falsyStr env.adminToken = false)
    (h5 : falsyStr env.openaiKey = false)
    (h6 : fetchRes.ok = true) (h7 : fetchRes.errors = false)
    (h8 : fetchRes.product = none) :
    handler req env fetchRes oracleRes regRes =
      ⟨404, .notFound, false, false, none⟩ := by
  simp [handler, h1, h2a, h2, h3, h4, h5, h6, h7, h8]

/-- C8 witness: a concrete request whose product lookup returns null. -/
theorem handler_notfound_C8_witness :
    handler ⟨"POST", some ⟨some "missing"⟩⟩
      ⟨some "store.example.com", some "token", some "key"⟩
      ⟨true, false, none⟩
      ⟨true, some ⟨some "t", none, none, some []⟩⟩
      ⟨true, false, []⟩ =
      ⟨404, .notFound, false, false, none⟩ :=
  handler_notfound_C8 _ _ _ _ _ _ rfl rfl rfl rfl rfl rfl rfl rfl rfl

/-- C9: every segment's text equals the slice `markup[start:end)` with
every `>` character removed — a bare `>` inside an open run stays inside
the range but is dropped from the text. -/
theorem segment_text_strips_gt_C9 (m : List Char) (s : TextSegment)
    (hs : s ∈ extractTextSegments m) :
    s.text = stripGt (jsSlice m s.start s.«end») :=
  (extract_segProps m s hs).2

/-- C9 witness: on `"a>b"` the single segment spans `[0,3)` and its text
is `"ab"`, the slice with the `>` removed. -/
theorem segment_text_strips_gt_C9_witness :
    (⟨0, 3, "ab".data⟩ : TextSegment).text =
      stripGt (jsSlice "a>b".data (⟨0, 3, "ab".data⟩ : TextSegment).start
        (⟨0, 3, "ab".data⟩ : TextSegment).«end») :=
  segment_text_strips_gt_C9 "a>b".data ⟨0, 3, "ab".data⟩ (by decide)

/-- C10: if the markup ends inside an unmatched `<` (no later `>`), no
segment range reaches past that `<`, so its characters are never
emitted as segment text; yet the splicer copies that whole suffix
verbatim to the end of its output, so it appears untranslated. -/
theorem unclosed_tag_C10 (a b : List Char) (T : List (List Char))
    (hb : '>' ∉ b)
    (hT : T.length = (extractTextSegments (a ++ '<' :: b)).length) :
    (∀ s ∈ extractTextSegments (a ++ '<' :: b), s.«end» ≤ a.length) ∧
    ('<' :: b).IsSuffix
      (rebuildHtmlWithTranslations (a ++ '<' :: b)
        (extractTextSegments (a ++ '<' :: b)) T) := by
  have hends : ∀ s ∈ extractTextSegments (a ++ '<' :: b), s.«end» ≤ a.length := by
    intro s hs
    have hb2 := extractLoop_unclosed_ends a b 0 false [] 0 hb s hs
    simpa using hb2
  refine ⟨hends, ?_⟩
  have hsuff := rebuildLoop_suffix (a ++ '<' :: b)
    (extractTextSegments (a ++ '<' :: b)) T 0 a.length hends (Nat.zero_le _)
  have hdropeq : (a ++ '<' :: b).drop a.length = '<' :: b := List.drop_left a ('<' :: b)
  rw [hdropeq] at hsuff
  exact hsuff

/-- C10 witness: in `"ab<cd"` the unmatched tail `"<cd"` is outside the
only segment and survives verbatim at the end of the spliced output. -/
theorem unclosed_tag_C10_witness :
    (∀ s ∈ extractTextSegments ("ab".data ++ '<' :: "cd".data),
      s.«end» ≤ "ab".data.length) ∧
    ('<' :: "cd".data).IsSuffix
      (rebuildHtmlWithTranslations ("ab".data ++ '<' :: "cd".data)
        (extractTextSegments ("ab".data ++ '<' :: "cd".data)) ["XY".data]) :=
  unclosed_tag_C10 "ab".data "cd".data ["XY".data] (by decide) (by decide)
